import Mathlib

/-
Verification development for the ringest buffered positional I/O layer.

Shallow embedding of the core of crate ringest-io:
  - src/ringest-io/src/write.rs  : PendingWrite
  - src/ringest-io/src/lib.rs    : WriteQueue, IoMetrics fields used here,
                                   IoTimeoutExt::with_timeout,
                                   LatencyMeasureExt::measure_latency
  - src/ringest-io/src/ctx.rs    : IoContext::{flush, write_at, read_at}

Modelling conventions:
  * Byte buffers (bytes::Bytes) are List Nat; byte values are opaque Nat.
  * u64 / usize values are Nat.  All quantities involved (offsets, buffer
    lengths, tallies, latencies in microseconds) are bounded far below 2^64
    in any execution, so wrap-around is not modelled.
  * The async effects are run sequentially: locks and the flush mutex
    serialise everything, so the single-threaded scenarios the claims are
    about are explicit state-passing functions.
  * The IoTarget is a parameter: a write endpoint of type
    Nat -> List Nat -> Except Error Unit and a read endpoint of type
    Nat -> Nat -> List Nat (together with the pure disk image Nat -> Nat
    where byte-level content matters).
-/

namespace Ringest

/-- PendingWrite from write.rs: an offset and an immutable byte buffer. -/
structure PendingWrite where
  offset : Nat
  data : List Nat
  deriving DecidableEq, Repr

/-- WriteQueue from lib.rs: insertion-ordered pending writes plus a running
byte tally. -/
structure WriteQueue where
  writes : List PendingWrite
  total_bytes : Nat
  deriving DecidableEq, Repr

/-- WriteQueue::new (also Default::default, the value mem::take leaves). -/
def WriteQueue.new : WriteQueue :=
  { writes := [], total_bytes := 0 }

/-- WriteQueue::push: add the payload length to the tally and append. -/
def WriteQueue.push (q : WriteQueue) (op : PendingWrite) : WriteQueue :=
  { writes := q.writes ++ [op], total_bytes := q.total_bytes + op.data.length }

/-- WriteQueue::clear. -/
def WriteQueue.clear (_q : WriteQueue) : WriteQueue :=
  { writes := [], total_bytes := 0 }

/-- WriteQueue::is_empty. -/
def WriteQueue.is_empty (q : WriteQueue) : Bool :=
  q.writes.isEmpty

/-- Sum of the payload lengths of a list of pending writes. -/
def sumLens (l : List PendingWrite) : Nat :=
  (l.map (fun w => w.data.length)).sum

/-- The WriteQueue mutations the context performs: push on the buffered
write path, clear (on the flushing queue), and the mem::take done by flush
which leaves the queue at Default::default(). -/
inductive QueueOp where
  | push (w : PendingWrite)
  | clear
  | take
  deriving Repr

/-- One WriteQueue mutation. -/
def applyOp (q : WriteQueue) : QueueOp → WriteQueue
  | QueueOp.push w => q.push w
  | QueueOp.clear => q.clear
  | QueueOp.take => WriteQueue.new

/-- A sequence of WriteQueue mutations starting from the empty queue. -/
def runOps (ops : List QueueOp) : WriteQueue :=
  ops.foldl applyOp WriteQueue.new

/-- The error type (ringest-error). Only the variants the io layer can
produce on this path are modelled: Timeout, and an underlying target error
(Io and friends), carried opaquely by a code. -/
inductive Error where
  | timeout
  | io (code : Nat)
  deriving DecidableEq, Repr

/-- The update function LatencyMeasureExt::measure_latency passes to
fetch_update: sample wins outright when the stored average is 0, otherwise
a 9/10 exponential moving average with integer division. -/
def emaNext (avg latency : Nat) : Option Nat :=
  if avg = 0 then some latency else some ((avg * 9 + latency) / 10)

/-- Effect of one fetch_update round on the stored metric (fetch_update
stores the value when the closure returns Some, which emaNext always does). -/
def measureLatencyUpdate (metric latency : Nat) : Nat :=
  (emaNext metric latency).getD metric

/-- Stable insertion of a pending write into a list sorted by offset: the
inserted element goes before strictly larger offsets and after equal ones
already present (it came later in the original order). -/
def insertSorted (w : PendingWrite) : List PendingWrite → List PendingWrite
  | [] => [w]
  | x :: xs => if w.offset ≤ x.offset then w :: x :: xs else x :: insertSorted w xs

/-- Stable sort by offset, modelling Rust Vec::sort_by_key(|op| op.offset)
(a stable sort: equal offsets keep insertion order). -/
def sortByOffset : List PendingWrite → List PendingWrite
  | [] => []
  | w :: rest => insertSorted w (sortByOffset rest)

/-- The merge loop of IoContext::flush: the combined buffer holds the run
started at offset start; while the next sorted write begins exactly at
start + buffer length it is appended, otherwise the run is issued and a new
run starts at the next write. Returns the list of issued
(offset, bytes) target writes in order. -/
def mergeRunsAux (start : Nat) (buf : List Nat) :
    List PendingWrite → List (Nat × List Nat)
  | [] => [(start, buf)]
  | next :: rest =>
    if start + buf.length = next.offset then
      mergeRunsAux start (buf ++ next.data) rest
    else
      (start, buf) :: mergeRunsAux next.offset next.data rest

/-- Target writes issued by flush for a sorted list of pending writes. -/
def mergeRuns : List PendingWrite → List (Nat × List Nat)
  | [] => []
  | w :: rest => mergeRunsAux w.offset w.data rest

/-- Issue the merged runs to the target in order; the first error aborts
(question-mark propagation in flush), and the successfully issued prefix is
reported. -/
def issueRuns (tgt : Nat → List Nat → Except Error Unit) :
    List (Nat × List Nat) → Except Error Unit × List (Nat × List Nat)
  | [] => (Except.ok (), [])
  | r :: rest =>
    match tgt r.1 r.2 with
    | Except.error e => (Except.error e, [])
    | Except.ok _ =>
      let p := issueRuns tgt rest
      (p.1, r :: p.2)

/-- The per-context state the modelled operations touch: the two queues and
the metrics cells flush and write_at read or write. -/
structure CtxState where
  write_queue : WriteQueue
  flushing_queue : WriteQueue
  avg_write_latency : Nat
  last_in : Nat
  last_out : Nat
  threshold_ns : Nat
  write_timeout : Nat
  deriving Repr

/-- IoContext::flush under the flush mutex: return success at once if the
write queue is empty; otherwise take the queue (leaving it at default),
copy the taken contents into the flushing queue, sort by offset, issue the
greedily merged adjacent runs, and on full success clear the flushing queue
and stamp last_out with the cached time. Returns the result, the state
after, and the target writes actually issued. -/
def flushCtx (tgt : Nat → List Nat → Except Error Unit) (now : Nat)
    (s : CtxState) : Except Error Unit × CtxState × List (Nat × List Nat) :=
  if s.write_queue.is_empty then (Except.ok (), s, [])
  else
    let taken := s.write_queue
    let s1 := { s with write_queue := WriteQueue.new, flushing_queue := taken }
    let runs := mergeRuns (sortByOffset taken.writes)
    let issued := issueRuns tgt runs
    match issued.1 with
    | Except.error e => (Except.error e, s1, issued.2)
    | Except.ok _ =>
      (Except.ok (),
       { s1 with flushing_queue := s1.flushing_queue.clear, last_out := now },
       issued.2)

/-- Behaviour of one direct target write as observed by the wrappers: it
either never completes, or completes after dur (model) time units with a
result. -/
inductive WriteOutcome where
  | hangs
  | completes (dur : Nat) (res : Except Error Unit)
  deriving Repr

/-- IoTimeoutExt::with_timeout (lib.rs): tokio::time::timeout maps a future
that has not completed when the bound elapses to Error::Timeout; a
completed future's result passes through unchanged. -/
def withTimeout (bound : Nat) : WriteOutcome → Except Error Unit
  | WriteOutcome.hangs => Except.error Error.timeout
  | WriteOutcome.completes dur res =>
    if bound < dur then Except.error Error.timeout else res

/-- Wall duration measure_latency observes around the timeout-wrapped
future: the future's own duration, cut off at the timeout bound. -/
def measuredDuration (bound : Nat) : WriteOutcome → Nat
  | WriteOutcome.hangs => bound
  | WriteOutcome.completes dur _ => min dur bound

/-- Which branch of the routing predicate a write_at call took. -/
inductive WritePath where
  | buffered
  | direct
  deriving DecidableEq, Repr

/-- IoContext::write_at: load the average write latency, stamp last_in,
then route: avg > threshold_ns or payload under 4 KiB goes to the buffered
path (push; flush when the tally exceeds 16 KiB), else the direct path (the
timeout-wrapped, latency-measured target write). outcome is the direct
target write's behaviour; tgt serves a triggered flush. Returns the
result, the state after, and the path taken. -/
def writeAtCtx (tgt : Nat → List Nat → Except Error Unit)
    (outcome : WriteOutcome) (now : Nat) (s : CtxState)
    (offset : Nat) (data : List Nat) :
    Except Error Unit × CtxState × WritePath :=
  let avg := s.avg_write_latency
  let s0 := { s with last_in := now }
  if avg > s0.threshold_ns ∨ data.length < 4 * 1024 then
    let q := s0.write_queue.push { offset := offset, data := data }
    let s1 := { s0 with write_queue := q }
    if q.total_bytes > 16 * 1024 then
      let f := flushCtx tgt now s1
      (f.1, f.2.1, WritePath.buffered)
    else
      (Except.ok (), s1, WritePath.buffered)
  else
    let res := withTimeout s0.write_timeout outcome
    let lat := measuredDuration s0.write_timeout outcome
    let s1 := { s0 with
      avg_write_latency := measureLatencyUpdate s0.avg_write_latency lat }
    (res, s1, WritePath.direct)

/-- The routing predicate exactly as the spec words it: the stored average
in microseconds against threshold_ns divided by 1000, or payload under
4 KiB. Spec-side definition, to be compared with writeAtCtx. -/
def specRoutingPredicate (avg_us threshold_ns len : Nat) : Prop :=
  avg_us > threshold_ns / 1000 ∨ len < 4096

/-- State read_at consults: the two queues plus the target read endpoint
(the bytes target.read_at would return for a given offset and length). -/
structure ReadCtx where
  write_queue : WriteQueue
  flushing_queue : WriteQueue

/-- The exact-match closure of IoContext::read_at: scan a queue newest to
oldest (iter().rev()) for a pending write at exactly this offset with
exactly this length, returning its bytes. -/
def find_exact_in_q (q : WriteQueue) (offset len : Nat) : Option (List Nat) :=
  (q.writes.reverse.find? fun p =>
    p.offset == offset && p.data.length == len).map PendingWrite.data

/-- The collect_patches closure of IoContext::read_at: every pending write
of the queue whose byte range intersects [offset, read_end), in queue
(insertion) order. -/
def collectPatches (q : WriteQueue) (offset read_end : Nat) :
    List PendingWrite :=
  q.writes.filter fun p =>
    p.offset < read_end && offset < p.offset + p.data.length

/-- Map a function of the position index over a buffer, the index starting
at i: the pointwise form of a slice-copy into a buffer. -/
def overlayIdx (f : Nat → Nat → Nat) : Nat → List Nat → List Nat
  | _, [] => []
  | i, b :: rest => f i b :: overlayIdx f (i + 1) rest

/-- One iteration of the patch loop of IoContext::read_at: skip patches
outside [offset, read_end), otherwise compute the copy window exactly as
the source does (start_in_buf, end_in_buf, start_in_patch) and copy the
patch slice over that window of the buffer (copy_from_slice, rendered
pointwise). -/
def applyPatch (offset read_end : Nat) (buf : List Nat)
    (patch : PendingWrite) : List Nat :=
  let p_start := patch.offset
  let p_end := patch.offset + patch.data.length
  if p_start ≥ read_end ∨ p_end ≤ offset then buf
  else
    let start_in_buf := if p_start > offset then p_start - offset else 0
    let end_in_buf := if p_end < read_end then p_end - offset else read_end - offset
    let start_in_patch := if p_start < offset then offset - p_start else 0
    overlayIdx
      (fun i b =>
        if start_in_buf ≤ i ∧ i < end_in_buf then
          patch.data.getD (start_in_patch + (i - start_in_buf)) b
        else b)
      0 buf

/-- The patch list the merge path of read_at ends up overlaying, in
overlay order. Sequentially (no concurrent mutation between the lock
acquisitions) the collections are: flushing_queue then write_queue under
the flush lock, then write_queue once more after the disk read, appended
without clearing. The snapshot taken before the flush lock is discarded
(potential_patches.clear()) and does not appear. -/
def mergePatchList (ctx : ReadCtx) (offset read_end : Nat) :
    List PendingWrite :=
  (collectPatches ctx.flushing_queue offset read_end
      ++ collectPatches ctx.write_queue offset read_end)
    ++ collectPatches ctx.write_queue offset read_end

/-- IoContext::read_at, run sequentially: try the exact-match
short-circuit on write_queue then flushing_queue; otherwise read len bytes
from the target and overlay the collected patches in order. targetRead is
the target read endpoint. -/
def readAt (ctx : ReadCtx) (targetRead : Nat → Nat → List Nat)
    (offset len : Nat) : List Nat :=
  let read_end := offset + len
  match find_exact_in_q ctx.write_queue offset len with
  | some data => data
  | none =>
    match find_exact_in_q ctx.flushing_queue offset len with
    | some data => data
    | none =>
      let patches := mergePatchList ctx offset read_end
      let disk := targetRead offset len
      patches.foldl (applyPatch offset read_end) disk

/-- Whether a pending write covers byte position pos. -/
def coversB (p : PendingWrite) (pos : Nat) : Bool :=
  p.offset ≤ pos && pos < p.offset + p.data.length

/-- The byte the last write in the list covering pos would leave there:
none when no write in the list covers pos. Later list elements take
precedence. -/
def lastPatch : List PendingWrite → Nat → Option Nat
  | [], _ => none
  | p :: rest, pos =>
    match lastPatch rest pos with
    | some v => some v
    | none => if coversB p pos then some (p.data.getD (pos - p.offset) 0) else none

/-- The read result the spec's read-your-writes sentence describes: the
pointwise overlay, in write order, of the pending writes on top of the
disk bytes at [offset, offset+len). Spec-side definition, to be compared
with readAt. -/
def specReadOverlay (diskBytes : List Nat) (writes : List PendingWrite)
    (offset len : Nat) : List Nat :=
  (List.range len).map fun i =>
    (lastPatch writes (offset + i)).getD (diskBytes.getD i 0)

/-- Pointwise effect of one target write on the disk image. -/
def applyWrite (disk : Nat → Nat) (off : Nat) (data : List Nat) : Nat → Nat :=
  fun pos =>
    if off ≤ pos ∧ pos < off + data.length then data.getD (pos - off) 0
    else disk pos

/-- Disk image after issuing a list of (offset, bytes) writes in order. -/
def applyRuns (disk : Nat → Nat) (runs : List (Nat × List Nat)) : Nat → Nat :=
  runs.foldl (fun d r => applyWrite d r.1 r.2) disk

/-- Disk image after applying a list of pending writes in order, each as
its own target write. -/
def applySeq (disk : Nat → Nat) (l : List PendingWrite) : Nat → Nat :=
  l.foldl (fun d w => applyWrite d w.offset w.data) disk

/-- Disk image after a fully successful flush of queue q: the merged
adjacent runs of the offset-sorted writes, issued in order. -/
def flushTargetState (disk : Nat → Nat) (q : WriteQueue) : Nat → Nat :=
  applyRuns disk (mergeRuns (sortByOffset q.writes))

/-- The pending writes starting from position pos form a gap-free chain:
each next write begins exactly where the previous one ended. -/
def chainFrom (pos : Nat) : List PendingWrite → Bool
  | [] => true
  | w :: rest => pos == w.offset && chainFrom (w.offset + w.data.length) rest

/-- A reusable concrete context state with empty queues. -/
def exState : CtxState :=
  { write_queue := WriteQueue.new, flushing_queue := WriteQueue.new,
    avg_write_latency := 0, last_in := 1, last_out := 2,
    threshold_ns := 1000000, write_timeout := 50 }

lemma sumLens_append (l₁ l₂ : List PendingWrite) :
    sumLens (l₁ ++ l₂) = sumLens l₁ + sumLens l₂ := by
  simp [sumLens]

lemma applyOp_tally (q : WriteQueue) (op : QueueOp)
    (h : q.total_bytes = sumLens q.writes) :
    (applyOp q op).total_bytes = sumLens (applyOp q op).writes := by
  cases op with
  | push w =>
    simp [applyOp, WriteQueue.push, sumLens_append, h, sumLens]
  | clear => simp [applyOp, WriteQueue.clear, sumLens]
  | take => simp [applyOp, WriteQueue.new, sumLens]

lemma foldl_applyOp_tally (ops : List QueueOp) :
    ∀ q : WriteQueue, q.total_bytes = sumLens q.writes →
      (ops.foldl applyOp q).total_bytes = sumLens (ops.foldl applyOp q).writes := by
  induction ops with
  | nil => intro q h; simpa using h
  | cons op rest ih =>
    intro q h
    simpa using ih (applyOp q op) (applyOp_tally q op h)

/-- C6. Queue tally invariant: after any sequence of WriteQueue operations
(push, clear, and the take performed by flush) starting from the empty
queue, total_bytes is the sum of the payload lengths of the queued writes,
and the queue is empty exactly when the writes list is empty. -/
theorem runOps_tally_invariant (ops : List QueueOp) :
    (runOps ops).total_bytes = sumLens (runOps ops).writes ∧
    ((runOps ops).is_empty = true ↔ (runOps ops).writes = []) := by
  refine ⟨foldl_applyOp_tally ops WriteQueue.new (by simp [WriteQueue.new, sumLens]), ?_⟩
  simp [WriteQueue.is_empty, List.isEmpty_iff]

/-- C7. Empty flush is a successful no-op: with an empty write queue,
flush returns success, issues no target write, and leaves the whole
context state (queues and metrics) unchanged. -/
theorem flushCtx_empty_noop (tgt : Nat → List Nat → Except Error Unit)
    (now : Nat) (s : CtxState) (h : s.write_queue.writes = []) :
    flushCtx tgt now s = (Except.ok (), s, []) := by
  simp [flushCtx, WriteQueue.is_empty, h]

/-- Witness for C7 at a concrete empty-queue state. -/
theorem flushCtx_empty_noop_witness :
    flushCtx (fun _ _ => Except.ok ()) 7 exState = (Except.ok (), exState, []) :=
  flushCtx_empty_noop (fun _ _ => Except.ok ()) 7 exState rfl

lemma writeAtCtx_direct (tgt : Nat → List Nat → Except Error Unit)
    (outcome : WriteOutcome) (now : Nat) (s : CtxState)
    (offset : Nat) (data : List Nat)
    (h : ¬ (s.avg_write_latency > s.threshold_ns ∨ data.length < 4 * 1024)) :
    writeAtCtx tgt outcome now s offset data =
      (withTimeout s.write_timeout outcome,
       { s with
         last_in := now
         avg_write_latency := measureLatencyUpdate s.avg_write_latency
           (measuredDuration s.write_timeout outcome) },
       WritePath.direct) := by
  simp [writeAtCtx, if_neg h]

lemma writeAtCtx_buffered_no_flush (tgt : Nat → List Nat → Except Error Unit)
    (outcome : WriteOutcome) (now : Nat) (s : CtxState)
    (offset : Nat) (data : List Nat)
    (h : s.avg_write_latency > s.threshold_ns ∨ data.length < 4 * 1024)
    (h16 : s.write_queue.total_bytes + data.length ≤ 16 * 1024) :
    writeAtCtx tgt outcome now s offset data =
      (Except.ok (),
       { s with
         last_in := now
         write_queue := s.write_queue.push { offset := offset, data := data } },
       WritePath.buffered) := by
  have hn : ¬ (WriteQueue.push s.write_queue
      { offset := offset, data := data }).total_bytes > 16 * 1024 := by
    simp [WriteQueue.push]
    omega
  simp [writeAtCtx, if_pos h, if_neg hn]

/-- C2 (amended). Routing predicate as the code computes it: write_at takes
the buffered path exactly when the stored average write latency (in
microseconds) exceeds threshold_ns with no unit conversion, or the payload
is under 4 KiB; otherwise the direct path. -/
theorem writeAt_routing_amended (tgt : Nat → List Nat → Except Error Unit)
    (outcome : WriteOutcome) (now : Nat) (s : CtxState)
    (offset : Nat) (data : List Nat) :
    (writeAtCtx tgt outcome now s offset data).2.2 = WritePath.buffered ↔
      (s.avg_write_latency > s.threshold_ns ∨ data.length < 4 * 1024) := by
  by_cases h : s.avg_write_latency > s.threshold_ns ∨ data.length < 4 * 1024
  · simp only [writeAtCtx, if_pos h]
    constructor
    · intro _; exact h
    · intro _
      by_cases h16 : (WriteQueue.push s.write_queue { offset := offset, data := data }).total_bytes > 16 * 1024
      · simp [if_pos h16]
      · simp [if_neg h16]
  · simp [writeAtCtx, if_neg h, h]

/-- Counterexample for C2 as stated: with a stored average of 2000 us and
threshold_ns = 1000000, the spec's predicate (2000 > 1000000/1000 = 1000)
chooses the buffered path for a 4096-byte write, but the code takes the
direct path (2000 > 1000000 is false and 4096 < 4096 is false). -/
theorem writeAt_routing_spec_counterexample :
    specRoutingPredicate 2000 1000000 4096 ∧
    (writeAtCtx (fun _ _ => Except.ok ())
        (WriteOutcome.completes 0 (Except.ok ())) 0
        { exState with avg_write_latency := 2000 }
        0 (List.replicate 4096 0)).2.2 = WritePath.direct := by
  constructor
  · exact Or.inl (by norm_num)
  · have h : ¬ (({ exState with avg_write_latency := 2000 } : CtxState).avg_write_latency
        > ({ exState with avg_write_latency := 2000 } : CtxState).threshold_ns
        ∨ (List.replicate 4096 (0 : Nat)).length < 4 * 1024) := by
      rw [List.length_replicate]; decide
    rw [writeAtCtx_direct _ _ _ _ _ _ h]

/-- C9. EMA update law, observed through one measured direct write that
completes within the timeout in dur microseconds: the stored average
becomes dur when it was 0, and (old * 9 + dur) / 10 (integer division)
when it was positive. -/
theorem directWrite_ema_update (tgt : Nat → List Nat → Except Error Unit)
    (now : Nat) (s : CtxState) (offset : Nat) (data : List Nat)
    (dur : Nat) (r : Except Error Unit)
    (hdirect : ¬ (s.avg_write_latency > s.threshold_ns ∨ data.length < 4 * 1024))
    (hdur : dur ≤ s.write_timeout) :
    (s.avg_write_latency = 0 →
      (writeAtCtx tgt (WriteOutcome.completes dur r) now s offset
          data).2.1.avg_write_latency = dur) ∧
    (0 < s.avg_write_latency →
      (writeAtCtx tgt (WriteOutcome.completes dur r) now s offset
          data).2.1.avg_write_latency
        = (s.avg_write_latency * 9 + dur) / 10) := by
  have hafter : (writeAtCtx tgt (WriteOutcome.completes dur r) now s offset
      data).2.1.avg_write_latency
      = measureLatencyUpdate s.avg_write_latency
          (measuredDuration s.write_timeout (WriteOutcome.completes dur r)) := by
    simp [writeAtCtx, if_neg hdirect]
  have hmin : measuredDuration s.write_timeout (WriteOutcome.completes dur r) = dur := by
    simp [measuredDuration, Nat.min_def]
    omega
  constructor
  · intro h0
    rw [hafter, hmin]
    simp [measureLatencyUpdate, emaNext, h0]
  · intro hpos
    rw [hafter, hmin]
    simp [measureLatencyUpdate, emaNext, Nat.pos_iff_ne_zero.mp hpos]

/-- Witness for C9: a fresh metric (old = 0) takes the sample 17; a
metric at 5 moves to (5 * 9 + 15) / 10 = 6. -/
theorem directWrite_ema_update_witness :
    ((writeAtCtx (fun _ _ => Except.ok ()) (WriteOutcome.completes 17 (Except.ok ())) 0
        exState 0 (List.replicate 4096 0)).2.1.avg_write_latency = 17) ∧
    ((writeAtCtx (fun _ _ => Except.ok ()) (WriteOutcome.completes 15 (Except.ok ())) 0
        { exState with avg_write_latency := 5 } 0
        (List.replicate 4096 0)).2.1.avg_write_latency = 6) := by
  constructor
  · exact
      (directWrite_ema_update (fun _ _ => Except.ok ()) 0 exState 0
        (List.replicate 4096 0) 17 (Except.ok ())
        (by rw [List.length_replicate]; decide) (by decide)).1 rfl
  · have h :=
      (directWrite_ema_update (fun _ _ => Except.ok ()) 0
        { exState with avg_write_latency := 5 } 0
        (List.replicate 4096 0) 15 (Except.ok ())
        (by rw [List.length_replicate]; decide) (by decide)).2 (by decide)
    rw [h]; decide

/-- C8. Direct-path error routing and buffered success: on the direct path
a target write that hangs, or completes only after write_timeout, yields
the Timeout error; one that completes with an error within the bound
surfaces that error unchanged; and a buffered write that does not push the
tally past 16 KiB returns success. -/
theorem writeAt_error_routing (tgt : Nat → List Nat → Except Error Unit)
    (now : Nat) (s : CtxState) (offset : Nat) (data : List Nat) :
    (∀ _h : ¬ (s.avg_write_latency > s.threshold_ns ∨ data.length < 4 * 1024),
      (writeAtCtx tgt WriteOutcome.hangs now s offset data).1
          = Except.error Error.timeout ∧
      (∀ dur r, s.write_timeout < dur →
        (writeAtCtx tgt (WriteOutcome.completes dur r) now s offset data).1
          = Except.error Error.timeout) ∧
      (∀ dur e, dur ≤ s.write_timeout →
        (writeAtCtx tgt (WriteOutcome.completes dur (Except.error e)) now s offset data).1
          = Except.error e)) ∧
    (∀ _h : s.avg_write_latency > s.threshold_ns ∨ data.length < 4 * 1024,
      s.write_queue.total_bytes + data.length ≤ 16 * 1024 →
      ∀ outcome,
        (writeAtCtx tgt outcome now s offset data).1 = Except.ok ()) := by
  constructor
  · intro h
    refine ⟨?_, ?_, ?_⟩
    · simp [writeAtCtx, if_neg h, withTimeout]
    · intro dur r hdur
      simp [writeAtCtx, if_neg h, withTimeout, if_pos hdur]
    · intro dur e hdur
      have : ¬ s.write_timeout < dur := by omega
      simp [writeAtCtx, if_neg h, withTimeout, if_neg this]
  · intro h hle outcome
    have h16 : ¬ (WriteQueue.push s.write_queue
        { offset := offset, data := data }).total_bytes > 16 * 1024 := by
      simp [WriteQueue.push]
      omega
    simp [writeAtCtx, if_pos h, if_neg h16]

/-- Witness for C8: with average latency 0, threshold 10^6 and a
4096-byte payload the direct path is taken; a hanging target write and one
completing after 60 > 50 time out, one failing after 10 surfaces the io
error; a 1-byte write is buffered into an empty queue and succeeds. -/
theorem writeAt_error_routing_witness :
    ((writeAtCtx (fun _ _ => Except.ok ()) WriteOutcome.hangs 0 exState 0
        (List.replicate 4096 0)).1 = Except.error Error.timeout) ∧
    ((writeAtCtx (fun _ _ => Except.ok ())
        (WriteOutcome.completes 60 (Except.ok ())) 0 exState 0
        (List.replicate 4096 0)).1 = Except.error Error.timeout) ∧
    ((writeAtCtx (fun _ _ => Except.ok ())
        (WriteOutcome.completes 10 (Except.error (Error.io 5))) 0 exState 0
        (List.replicate 4096 0)).1 = Except.error (Error.io 5)) ∧
    ((writeAtCtx (fun _ _ => Except.ok ())
        (WriteOutcome.completes 0 (Except.ok ())) 0 exState 0 [3]).1
      = Except.ok ()) := by
  have hbig : ¬ (exState.avg_write_latency > exState.threshold_ns ∨
      (List.replicate 4096 (0 : Nat)).length < 4 * 1024) := by
    rw [List.length_replicate]; decide
  refine ⟨?_, ?_, ?_, ?_⟩
  · exact ((writeAt_error_routing (fun _ _ => Except.ok ()) 0 exState 0
      (List.replicate 4096 0)).1 hbig).1
  · exact ((writeAt_error_routing (fun _ _ => Except.ok ()) 0 exState 0
      (List.replicate 4096 0)).1 hbig).2.1 60 (Except.ok ()) (by decide)
  · exact ((writeAt_error_routing (fun _ _ => Except.ok ()) 0 exState 0
      (List.replicate 4096 0)).1 hbig).2.2 10 (Error.io 5) (by decide)
  · exact (writeAt_error_routing (fun _ _ => Except.ok ()) 0 exState 0 [3]).2
      (Or.inr (by decide)) (by decide)
      (WriteOutcome.completes 0 (Except.ok ()))

lemma insertSorted_perm (w : PendingWrite) (l : List PendingWrite) :
    (insertSorted w l).Perm (w :: l) := by
  induction l with
  | nil => exact List.Perm.refl _
  | cons x xs ih =>
    simp only [insertSorted]
    split
    · exact List.Perm.refl _
    · exact (ih.cons x).trans (List.Perm.swap w x xs)

lemma sortByOffset_perm (l : List PendingWrite) :
    (sortByOffset l).Perm l := by
  induction l with
  | nil => exact List.Perm.refl _
  | cons w rest ih =>
    exact (insertSorted_perm w (sortByOffset rest)).trans (ih.cons w)

lemma insertSorted_sorted (w : PendingWrite) (l : List PendingWrite)
    (h : l.Sorted fun a b : PendingWrite => a.offset ≤ b.offset) :
    (insertSorted w l).Sorted fun a b : PendingWrite => a.offset ≤ b.offset := by
  induction l with
  | nil => simp [insertSorted]
  | cons x xs ih =>
    rw [List.sorted_cons] at h
    simp only [insertSorted]
    split
    · rename_i hle
      rw [List.sorted_cons]
      refine ⟨?_, List.sorted_cons.mpr h⟩
      intro b hb
      rcases List.mem_cons.mp hb with hb | hb
      · rw [hb]; exact hle
      · exact le_trans hle (h.1 b hb)
    · rename_i hgt
      rw [List.sorted_cons]
      refine ⟨?_, ih h.2⟩
      intro b hb
      have hb' := (insertSorted_perm w xs).mem_iff.mp hb
      rcases List.mem_cons.mp hb' with hb' | hb'
      · rw [hb']; omega
      · exact h.1 b hb'

lemma sortByOffset_sorted (l : List PendingWrite) :
    (sortByOffset l).Sorted fun a b : PendingWrite => a.offset ≤ b.offset := by
  induction l with
  | nil => simp [sortByOffset]
  | cons w rest ih => exact insertSorted_sorted w (sortByOffset rest) ih

lemma applyWrite_append (disk : Nat → Nat) (start : Nat) (b d : List Nat) :
    applyWrite disk start (b ++ d)
      = applyWrite (applyWrite disk start b) (start + b.length) d := by
  funext pos
  by_cases h1 : start ≤ pos ∧ pos < start + b.length
  · have hcond : start ≤ pos ∧ pos < start + (b ++ d).length := by
      rw [List.length_append]; omega
    have hnot : ¬ (start + b.length ≤ pos ∧
        pos < start + b.length + d.length) := by omega
    simp only [applyWrite, if_pos hcond, if_pos h1, if_neg hnot]
    exact List.getD_append _ _ _ _ (by omega)
  · by_cases h2 : start + b.length ≤ pos ∧ pos < start + b.length + d.length
    · have hcond : start ≤ pos ∧ pos < start + (b ++ d).length := by
        rw [List.length_append]; omega
      simp only [applyWrite, if_pos hcond, if_pos h2]
      rw [List.getD_append_right _ _ _ _ (by omega)]
      congr 1
      omega
    · have hcond : ¬ (start ≤ pos ∧ pos < start + (b ++ d).length) := by
        rw [List.length_append]; omega
      simp only [applyWrite, if_neg hcond, if_neg h1, if_neg h2]

lemma applyRuns_mergeRunsAux (l : List PendingWrite) :
    ∀ (start : Nat) (buf : List Nat) (disk : Nat → Nat),
      applyRuns disk (mergeRunsAux start buf l)
        = applySeq (applyWrite disk start buf) l := by
  induction l with
  | nil =>
    intro start buf disk
    simp [mergeRunsAux, applyRuns, applySeq]
  | cons next rest ih =>
    intro start buf disk
    simp only [mergeRunsAux]
    by_cases h : start + buf.length = next.offset
    · rw [if_pos h, ih, applyWrite_append disk start buf next.data, h]
      simp [applySeq]
    · rw [if_neg h]
      simp only [applyRuns, List.foldl_cons] at *
      rw [ih]
      simp [applySeq]

lemma applyRuns_mergeRuns (disk : Nat → Nat) (l : List PendingWrite) :
    applyRuns disk (mergeRuns l) = applySeq disk l := by
  cases l with
  | nil => simp [mergeRuns, applyRuns, applySeq]
  | cons w rest =>
    simp only [mergeRuns]
    rw [applyRuns_mergeRunsAux]
    simp [applySeq]

lemma coversB_iff (p : PendingWrite) (pos : Nat) :
    coversB p pos = true ↔ p.offset ≤ pos ∧ pos < p.offset + p.data.length := by
  simp [coversB]

lemma applySeq_lastPatch (l : List PendingWrite) :
    ∀ (disk : Nat → Nat) (pos : Nat),
      applySeq disk l pos = (lastPatch l pos).getD (disk pos) := by
  induction l with
  | nil => intro disk pos; simp [applySeq, lastPatch]
  | cons w rest ih =>
    intro disk pos
    simp only [applySeq, List.foldl_cons] at ih ⊢
    rw [ih]
    simp only [lastPatch]
    cases hl : lastPatch rest pos with
    | some v => simp
    | none =>
      by_cases hc : w.offset ≤ pos ∧ pos < w.offset + w.data.length
      · have hcb : coversB w pos = true := (coversB_iff w pos).mpr hc
        simp only [applyWrite, if_pos hc, hcb, if_true, Option.getD_some,
          Option.getD_none]
      · have hcb : coversB w pos = false := by
          cases hb : coversB w pos
          · rfl
          · exact absurd ((coversB_iff w pos).mp hb) hc
        simp only [applyWrite, if_neg hc, hcb, Bool.false_eq_true, if_false,
          Option.getD_none]

/-- C4 (amended). Overlap policy at flush: flush issues the queued writes
sorted by offset with ties in insertion order; consequently, for every
byte, the value on the target after a successful flush is that of the
write occurring last in that sorted order among those covering the byte
(so at an overlapped byte the write with the larger offset wins, and only
among writes at the same offset does the one enqueued last win), not the
last-enqueued write in general. -/
theorem flush_sorted_last_wins (disk : Nat → Nat) (q : WriteQueue) (pos : Nat) :
    flushTargetState disk q pos
      = (lastPatch (sortByOffset q.writes) pos).getD (disk pos) := by
  unfold flushTargetState
  rw [applyRuns_mergeRuns, applySeq_lastPatch]

/-- Counterexample for C4 as stated: enqueue first a write of 1s at
offset 2, then a write of 2s at offset 0; both cover byte 3. The
last-enqueued covering write (lastPatch over the insertion-order list)
would leave 2 there, but after flush the target holds 1, because the
first-enqueued write sorts to the larger offset and is issued last. -/
theorem flush_last_enqueued_counterexample :
    flushTargetState (fun _ => 0)
        { writes := [{ offset := 2, data := [1, 1, 1, 1] },
                     { offset := 0, data := [2, 2, 2, 2] }],
          total_bytes := 8 } 3 = 1 ∧
    lastPatch [{ offset := 2, data := [1, 1, 1, 1] },
               { offset := 0, data := [2, 2, 2, 2] }] 3 = some 2 ∧
    (1 : Nat) ≠ 2 := by
  refine ⟨by decide, by decide, by decide⟩

lemma issueRuns_ok (tgt : Nat → List Nat → Except Error Unit)
    (h : ∀ o d, tgt o d = Except.ok ()) :
    ∀ runs, issueRuns tgt runs = (Except.ok (), runs) := by
  intro runs
  induction runs with
  | nil => simp [issueRuns]
  | cons r rest ih => simp [issueRuns, h, ih]

lemma mergeRunsAux_chain (l : List PendingWrite) :
    ∀ (start : Nat) (buf : List Nat),
      chainFrom (start + buf.length) l = true →
      mergeRunsAux start buf l
        = [(start, buf ++ (l.map PendingWrite.data).flatten)] := by
  induction l with
  | nil => intro start buf _; simp [mergeRunsAux]
  | cons w rest ih =>
    intro start buf h
    simp only [chainFrom, Bool.and_eq_true, beq_iff_eq] at h
    obtain ⟨h1, h2⟩ := h
    simp only [mergeRunsAux, if_pos h1]
    have hch : chainFrom (start + (buf ++ w.data).length) rest = true := by
      rw [List.length_append]
      have : start + (buf.length + w.data.length)
          = w.offset + w.data.length := by omega
      rw [this]
      exact h2
    rw [ih start (buf ++ w.data) hch]
    simp [List.append_assoc]

/-- C5. Adjacency merging: when the offset-sorted write queue forms one
gap-free run, flush issues exactly one target write, at the run's start
offset, carrying the concatenation of the run's byte buffers. -/
theorem flush_adjacent_single_run (tgt : Nat → List Nat → Except Error Unit)
    (now : Nat) (s : CtxState) (w : PendingWrite) (ws : List PendingWrite)
    (htgt : ∀ o d, tgt o d = Except.ok ())
    (hsort : sortByOffset s.write_queue.writes = w :: ws)
    (hchain : chainFrom (w.offset + w.data.length) ws = true) :
    (flushCtx tgt now s).2.2
      = [(w.offset, w.data ++ (ws.map PendingWrite.data).flatten)] := by
  have hne : s.write_queue.writes ≠ [] := by
    intro h0
    rw [h0] at hsort
    simp [sortByOffset] at hsort
  have hemp : ¬ (s.write_queue.is_empty = true) := by
    simp [WriteQueue.is_empty, List.isEmpty_iff]
    exact hne
  have hruns : mergeRuns (sortByOffset s.write_queue.writes)
      = [(w.offset, w.data ++ (ws.map PendingWrite.data).flatten)] := by
    rw [hsort]
    simp only [mergeRuns]
    exact mergeRunsAux_chain ws w.offset w.data hchain
  simp only [flushCtx, if_neg hemp, hruns, issueRuns_ok tgt htgt]

/-- Witness for C5: two adjacent one-byte writes at offsets 0 and 1 flush
as the single target write (0, [1, 2]). -/
theorem flush_adjacent_single_run_witness :
    (flushCtx (fun _ _ => Except.ok ()) 9
        { exState with
          write_queue :=
            { writes := [{ offset := 0, data := [1] },
                         { offset := 1, data := [2] }],
              total_bytes := 2 } }).2.2 = [(0, [1, 2])] := by
  have h := flush_adjacent_single_run (fun _ _ => Except.ok ()) 9
      { exState with
        write_queue :=
          { writes := [{ offset := 0, data := [1] },
                       { offset := 1, data := [2] }],
            total_bytes := 2 } }
      { offset := 0, data := [1] } [{ offset := 1, data := [2] }]
      (fun _ _ => rfl) (by decide) (by decide)
  rw [h]
  decide

lemma overlayIdx_length (f : Nat → Nat → Nat) :
    ∀ (l : List Nat) (i : Nat), (overlayIdx f i l).length = l.length := by
  intro l
  induction l with
  | nil => intro i; rfl
  | cons b rest ih => intro i; simp [overlayIdx, ih]

lemma overlayIdx_getD (f : Nat → Nat → Nat) :
    ∀ (l : List Nat) (i j : Nat), j < l.length →
      (overlayIdx f i l).getD j 0 = f (i + j) (l.getD j 0) := by
  intro l
  induction l with
  | nil => intro i j h; simp at h
  | cons b rest ih =>
    intro i j h
    cases j with
    | zero => simp [overlayIdx]
    | succ j' =>
      simp only [overlayIdx, List.getD_cons_succ]
      rw [ih (i + 1) j' (by simpa using h)]
      congr 1
      omega

lemma applyPatch_length (offset read_end : Nat) (buf : List Nat)
    (p : PendingWrite) :
    (applyPatch offset read_end buf p).length = buf.length := by
  simp only [applyPatch]
  split
  · rfl
  · exact overlayIdx_length _ buf 0

lemma applyPatch_getD (offset read_end : Nat) (buf : List Nat)
    (p : PendingWrite) (i : Nat) (hi : i < buf.length) :
    (applyPatch offset read_end buf p).getD i 0
      = if p.offset ≤ offset + i ∧ offset + i < p.offset + p.data.length ∧
            offset + i < read_end
        then p.data.getD (offset + i - p.offset) 0
        else buf.getD i 0 := by
  simp only [applyPatch]
  by_cases h0 : p.offset ≥ read_end ∨ p.offset + p.data.length ≤ offset
  · rw [if_pos h0, if_neg (by omega)]
  · rw [if_neg h0]
    rw [overlayIdx_getD _ buf 0 i hi]
    simp only [Nat.zero_add]
    have e1 : (if p.offset > offset then p.offset - offset else 0)
        = p.offset - offset := by split <;> omega
    have e2 : (if p.offset < offset then offset - p.offset else 0)
        = offset - p.offset := by split <;> omega
    have e3 : (if p.offset + p.data.length < read_end
          then p.offset + p.data.length - offset else read_end - offset)
        = min (p.offset + p.data.length) read_end - offset := by
      split <;> omega
    rw [e1, e2, e3]
    by_cases hC : p.offset ≤ offset + i ∧
        offset + i < p.offset + p.data.length ∧ offset + i < read_end
    · rw [if_pos hC, if_pos (by omega)]
      have hidx : offset - p.offset + (i - (p.offset - offset))
          = offset + i - p.offset := by omega
      rw [hidx]
      have hlt : offset + i - p.offset < p.data.length := by omega
      rw [List.getD_eq_getElem _ _ hlt, List.getD_eq_getElem _ _ hlt]
    · rw [if_neg hC, if_neg (by omega)]

lemma foldl_applyPatch_length (patches : List PendingWrite)
    (offset read_end : Nat) :
    ∀ buf : List Nat,
      (patches.foldl (applyPatch offset read_end) buf).length = buf.length := by
  induction patches with
  | nil => intro buf; rfl
  | cons p rest ih =>
    intro buf
    simp only [List.foldl_cons]
    rw [ih, applyPatch_length]

lemma foldl_applyPatch_getD (patches : List PendingWrite)
    (offset read_end : Nat) :
    ∀ (buf : List Nat) (i : Nat), i < buf.length → offset + i < read_end →
      (patches.foldl (applyPatch offset read_end) buf).getD i 0
        = (lastPatch patches (offset + i)).getD (buf.getD i 0) := by
  induction patches with
  | nil => intro buf i hi hre; simp [lastPatch]
  | cons p rest ih =>
    intro buf i hi hre
    simp only [List.foldl_cons, lastPatch]
    rw [ih _ i (by rw [applyPatch_length]; exact hi) hre]
    rw [applyPatch_getD offset read_end buf p i hi]
    cases hl : lastPatch rest (offset + i) with
    | some v => simp
    | none =>
      by_cases hc : coversB p (offset + i) = true
      · have hc' := (coversB_iff p (offset + i)).mp hc
        rw [if_pos ⟨hc'.1, hc'.2, hre⟩]
        simp [hc]
      · have hc' : ¬ (p.offset ≤ offset + i ∧
            offset + i < p.offset + p.data.length) := fun h =>
          hc ((coversB_iff p (offset + i)).mpr h)
        rw [if_neg (by tauto)]
        simp [hc]

lemma lastPatch_cons (p : PendingWrite) (l : List PendingWrite) (pos : Nat) :
    lastPatch (p :: l) pos
      = (lastPatch l pos).or
          (if coversB p pos then some (p.data.getD (pos - p.offset) 0)
           else none) := by
  simp only [lastPatch]
  cases lastPatch l pos <;> rfl

lemma lastPatch_append (a b : List PendingWrite) (pos : Nat) :
    lastPatch (a ++ b) pos = (lastPatch b pos).or (lastPatch a pos) := by
  induction a with
  | nil =>
    simp only [List.nil_append, lastPatch, Option.or_none]
  | cons p rest ih =>
    rw [List.cons_append, lastPatch_cons, lastPatch_cons, ih, Option.or_assoc]

lemma lastPatch_self_append (w : List PendingWrite) (pos : Nat) :
    lastPatch (w ++ w) pos = lastPatch w pos := by
  rw [lastPatch_append]
  cases lastPatch w pos <;> rfl

lemma lastPatch_filter (pred : PendingWrite → Bool) (l : List PendingWrite)
    (pos : Nat) (h : ∀ p, coversB p pos = true → pred p = true) :
    lastPatch (l.filter pred) pos = lastPatch l pos := by
  induction l with
  | nil => rfl
  | cons p rest ih =>
    rw [List.filter_cons]
    by_cases hp : pred p = true
    · rw [if_pos hp, lastPatch_cons, lastPatch_cons, ih]
    · rw [if_neg hp, ih, lastPatch_cons]
      have hcov : coversB p pos = false := by
        cases hcv : coversB p pos
        · rfl
        · exact absurd (h p hcv) hp
      rw [hcov]
      simp

lemma find_exact_length (q : WriteQueue) (offset len : Nat) (data : List Nat)
    (h : find_exact_in_q q offset len = some data) : data.length = len := by
  unfold find_exact_in_q at h
  cases hf : q.writes.reverse.find? fun p =>
      p.offset == offset && p.data.length == len with
  | none => rw [hf] at h; simp at h
  | some p =>
    rw [hf] at h
    simp only [Option.map_some', Option.some.injEq] at h
    have hp := List.find?_some hf
    simp only [Bool.and_eq_true, beq_iff_eq] at hp
    rw [← h]
    exact hp.2

/-- C10. Read length postcondition: when the target read returns exactly
the requested number of bytes, read_at returns exactly len bytes, on both
the exact-match short-circuit path and the merge path. -/
theorem readAt_length (ctx : ReadCtx) (targetRead : Nat → Nat → List Nat)
    (offset len : Nat) (hlen : ∀ o l, (targetRead o l).length = l) :
    (readAt ctx targetRead offset len).length = len := by
  unfold readAt
  cases h1 : find_exact_in_q ctx.write_queue offset len with
  | some data => exact find_exact_length _ _ _ _ h1
  | none =>
    cases h2 : find_exact_in_q ctx.flushing_queue offset len with
    | some data => exact find_exact_length _ _ _ _ h2
    | none =>
      rw [foldl_applyPatch_length]
      exact hlen offset len

/-- Witness for C10 on a concrete merge-path read of 4 bytes. -/
theorem readAt_length_witness :
    (readAt
        { write_queue := { writes := [{ offset := 2, data := [5, 5] }],
                           total_bytes := 2 },
          flushing_queue := WriteQueue.new }
        (fun _ l => List.replicate l 9) 0 4).length = 4 :=
  readAt_length _ (fun _ l => List.replicate l 9) 0 4
    (fun _ l => List.length_replicate l 9)

/-- C1 (amended). Read-your-writes on the merge path: for buffered writes
only (flushing queue empty, no concurrent flush), when no pending write
exactly matches the requested range, read_at returns exactly the pointwise
overlay, in write order, of the pending writes on top of the target bytes
at [offset, offset+len). When an exact-range match exists the
short-circuit returns that write's bytes instead, which can ignore newer
partially-overlapping writes. -/
theorem readAt_overlay_no_exact (ctx : ReadCtx)
    (targetRead : Nat → Nat → List Nat) (offset len : Nat)
    (hflush : ctx.flushing_queue.writes = [])
    (hlen : (targetRead offset len).length = len)
    (hnoexact : find_exact_in_q ctx.write_queue offset len = none) :
    readAt ctx targetRead offset len
      = specReadOverlay (targetRead offset len) ctx.write_queue.writes
          offset len := by
  have hfq : find_exact_in_q ctx.flushing_queue offset len = none := by
    simp [find_exact_in_q, hflush]
  have hpatch : mergePatchList ctx offset (offset + len)
      = collectPatches ctx.write_queue offset (offset + len)
        ++ collectPatches ctx.write_queue offset (offset + len) := by
    simp [mergePatchList, collectPatches, hflush]
  simp only [readAt, hnoexact, hfq, hpatch]
  apply List.ext_getElem
  · rw [foldl_applyPatch_length, hlen]
    simp [specReadOverlay]
  · intro n h1 h2
    have hn : n < len := by
      rw [foldl_applyPatch_length, hlen] at h1
      exact h1
    rw [← List.getD_eq_getElem _ 0 h1, ← List.getD_eq_getElem _ 0 h2]
    rw [foldl_applyPatch_getD _ _ _ _ n (by rw [hlen]; exact hn) (by omega)]
    have hrhs : (specReadOverlay (targetRead offset len)
        ctx.write_queue.writes offset len).getD n 0
        = (lastPatch ctx.write_queue.writes (offset + n)).getD
            ((targetRead offset len).getD n 0) := by
      rw [List.getD_eq_getElem _ 0 h2]
      simp only [specReadOverlay]
      rw [List.getElem_map, List.getElem_range]
    rw [hrhs]
    congr 1
    rw [lastPatch_self_append]
    simp only [collectPatches]
    apply lastPatch_filter
    intro p hp
    have hcov := (coversB_iff p (offset + n)).mp hp
    simp only [Bool.and_eq_true, decide_eq_true_eq]
    omega

/-- Counterexample for C1 as stated: with pending writes (0, [1,1,1,1])
then (2, [5,5]) and no flush, a read_at(0, 4) finds the older write as an
exact range match and returns [1,1,1,1]; the pointwise overlay in write
order over disk bytes 9 is [1,1,5,5]. -/
theorem readAt_exact_match_counterexample :
    readAt
        { write_queue := { writes := [{ offset := 0, data := [1, 1, 1, 1] },
                                      { offset := 2, data := [5, 5] }],
                           total_bytes := 6 },
          flushing_queue := WriteQueue.new }
        (fun _ l => List.replicate l 9) 0 4 = [1, 1, 1, 1] ∧
    specReadOverlay (List.replicate 4 9)
        [{ offset := 0, data := [1, 1, 1, 1] },
         { offset := 2, data := [5, 5] }] 0 4 = [1, 1, 5, 5] ∧
    ([1, 1, 1, 1] : List Nat) ≠ [1, 1, 5, 5] := by
  refine ⟨by decide, by decide, by decide⟩

/-- Witness for C1 (amended): one pending overlapping write, no exact
match; read_at(0, 4) equals the overlay [9, 9, 5, 5]. -/
theorem readAt_overlay_no_exact_witness :
    readAt
        { write_queue := { writes := [{ offset := 2, data := [5, 5] }],
                           total_bytes := 2 },
          flushing_queue := WriteQueue.new }
        (fun _ l => List.replicate l 9) 0 4
      = specReadOverlay (List.replicate 4 9)
          [{ offset := 2, data := [5, 5] }] 0 4 :=
  readAt_overlay_no_exact
    { write_queue := { writes := [{ offset := 2, data := [5, 5] }],
                       total_bytes := 2 },
      flushing_queue := WriteQueue.new }
    (fun _ l => List.replicate l 9) 0 4 rfl (by decide) (by decide)

/-- C3 (amended). Bounded duplication in the read-merge overlay: the merge
path collects the write queue twice (once under the flush lock before the
disk read and once after, without clearing), so each occurrence of a
PendingWrite in the flushing queue is copied at most once and each
occurrence in the write queue at most twice per call; the duplicate
copies are byte-identical, leaving the result unaffected. -/
theorem mergePatch_count_le (ctx : ReadCtx) (offset read_end : Nat)
    (w : PendingWrite) :
    List.count w (mergePatchList ctx offset read_end)
      ≤ List.count w ctx.flushing_queue.writes
        + 2 * List.count w ctx.write_queue.writes := by
  have hf := List.Sublist.count_le
    (List.filter_sublist (l := ctx.flushing_queue.writes)
      (p := fun p => p.offset < read_end && offset < p.offset + p.data.length)) w
  have hw := List.Sublist.count_le
    (List.filter_sublist (l := ctx.write_queue.writes)
      (p := fun p => p.offset < read_end && offset < p.offset + p.data.length)) w
  simp only [mergePatchList, collectPatches, List.count_append]
  omega

/-- Counterexample for C3 as stated: one overlapping pending write in the
write queue, no exact match for read_at(0, 4); the merge path's collected
patch list contains that PendingWrite twice, so it is copied onto the
result buffer twice in one call. -/
theorem mergePatch_duplicate_counterexample :
    find_exact_in_q { writes := [{ offset := 2, data := [5, 5] }],
                      total_bytes := 2 } 0 4 = none ∧
    find_exact_in_q WriteQueue.new 0 4 = none ∧
    List.count { offset := 2, data := [5, 5] }
      (mergePatchList
        { write_queue := { writes := [{ offset := 2, data := [5, 5] }],
                           total_bytes := 2 },
          flushing_queue := WriteQueue.new } 0 4) = 2 := by
  refine ⟨by decide, by decide, by decide⟩

end Ringest
